import Mathlib

/-!
Shallow embedding of the nrwe-scraper document-parsing core
(src/parse_docs.py and src/extract_verdict.py).

Python strings are modelled as lists of characters (PyStr).  Python's
whitespace class (the one shared by str.split, str.strip and the regex
class for spaces on str patterns) is embedded in full: the code points
9-13, 28-32, 133, 160, 5760, 8192-8202, 8232, 8233, 8239, 8287 and
12288.  str.lower and the re.IGNORECASE letter comparison are embedded
exactly on Latin-1 (code points below 256), where Python lowers A-Z and
the uppercase letters 192-222 except the multiplication sign by adding
32 and leaves everything else unchanged; characters above Latin-1 are
left unchanged, so theorems whose truth depends on str.lower carry an
explicit Latin-1 hypothesis on the strings being lowercased.

The two regular expressions of extract_verdict.py are embedded as data
(the RE type below) together with an executable backtracking matcher
whose choice order follows Python's re module: greedy pieces try the
longest repetition first, lazy pieces the shortest, ordered alternation
tries the left branch first, and re.match anchors at the start of the
text without requiring the match to reach the end.
-/

abbrev PyStr := List Char

def toL (s : String) : PyStr := s.data

/-- Python's whitespace class; str.split, str.strip and the regex class for
spaces in str patterns all use this set: code points 9-13, 28-32, 133 (NEL),
160 (no-break space), 5760, 8192-8202, 8232, 8233, 8239, 8287 and 12288. -/
def isPySpace (c : Char) : Bool :=
  decide ((9 ≤ c.toNat ∧ c.toNat ≤ 13) ∨ (28 ≤ c.toNat ∧ c.toNat ≤ 32) ∨
    c.toNat = 133 ∨ c.toNat = 160 ∨ c.toNat = 5760 ∨
    (8192 ≤ c.toNat ∧ c.toNat ≤ 8202) ∨ c.toNat = 8232 ∨ c.toNat = 8233 ∨
    c.toNat = 8239 ∨ c.toNat = 8287 ∨ c.toNat = 12288)

/-- Lowercasing of one character, exact on Latin-1 (code points below 256):
str.lower maps A-Z and the Latin-1 uppercase letters 192-222 other than the
multiplication sign 215 up by 32 code points and changes nothing else in that
range.  Characters above Latin-1 are left unchanged, so theorems whose truth
depends on str.lower confine the lowercased strings to Latin-1.  (Models
str.lower and the re.IGNORECASE letter comparison.) -/
def lowerCI (c : Char) : Char :=
  if 65 ≤ c.toNat ∧ c.toNat ≤ 90 then Char.ofNat (c.toNat + 32)
  else if 192 ≤ c.toNat ∧ c.toNat ≤ 222 ∧ c.toNat ≠ 215 then Char.ofNat (c.toNat + 32)
  else c

/-- str.lower() -/
def pyLower (s : PyStr) : PyStr := s.map lowerCI

/-- str.split() with no arguments: the maximal runs of non-whitespace characters. -/
def pySplit : PyStr → List PyStr
  | [] => []
  | [c] => if isPySpace c then [] else [[c]]
  | c :: d :: s =>
    if isPySpace c then pySplit (d :: s)
    else
      if isPySpace d then [c] :: pySplit (d :: s)
      else
        match pySplit (d :: s) with
        | [] => [[c]]
        | w :: ws => (c :: w) :: ws

/-- " ".join of a list of strings. -/
def joinSp : List PyStr → PyStr
  | [] => []
  | [t] => t
  | t :: ts => t ++ ' ' :: joinSp ts

/-- " ".join(s.split()): collapse every whitespace run to one space, trim the ends. -/
def normWs (s : PyStr) : PyStr := joinSp (pySplit s)

/-- str.strip() -/
def pyStrip (s : PyStr) : PyStr :=
  ((s.dropWhile isPySpace).reverse.dropWhile isPySpace).reverse

/-- str.rstrip(":"): drop every trailing colon. -/
def rstripColon (s : PyStr) : PyStr :=
  (s.reverse.dropWhile (fun c => c == ':')).reverse

/-- The key normalisation of _extract_fields:
" ".join(key.text_content().split()).lower().rstrip(":"). -/
def normLabel (s : PyStr) : PyStr := rstripColon (pyLower (normWs s))

/-- The label normalisation used by the classifiers:
sub_div.text_content().strip().rstrip(":"). -/
def stripLabel (s : PyStr) : PyStr := rstripColon (pyStrip s)

/-- The regex fragments that pattern_1 and pattern_2 of extract_verdict.py
are built from.  lit is a cased letter (compared case-insensitively, as the
patterns carry re.IGNORECASE); chr is a caseless literal; opt a greedy
optional literal; star a greedy star over a one-character class; grp the
lazy capturing group dot-star under re.DOTALL. -/
inductive RE where
  | lit (c : Char)
  | chr (c : Char)
  | opt (c : Char)
  | star (p : Char → Bool)
  | grp
  | seq (a b : RE)
  | alt (a b : RE)
  | eps
  | eos

/-- Length of the maximal prefix of s whose characters satisfy p. -/
def prefLen (p : Char → Bool) : PyStr → Nat
  | [] => 0
  | c :: s => if p c then prefLen p s + 1 else 0

/-- Backtracking matcher in continuation style.  The continuation receives
the remaining text and the capture list; the first success in Python's
backtracking order is returned. -/
def reMatch : RE → PyStr → List PyStr → (PyStr → List PyStr → Option (List PyStr)) →
    Option (List PyStr)
  | .eps, s, caps, k => k s caps
  | .eos, s, caps, k =>
    match s with
    | [] => k [] caps
    | _ :: _ => none
  | .lit c, s, caps, k =>
    match s with
    | [] => none
    | d :: s2 => if lowerCI d == lowerCI c then k s2 caps else none
  | .chr c, s, caps, k =>
    match s with
    | [] => none
    | d :: s2 => if d == c then k s2 caps else none
  | .opt c, s, caps, k =>
    match s with
    | [] => k [] caps
    | d :: s2 =>
      if d == c then
        match k s2 caps with
        | some r => some r
        | none => k s caps
      else k s caps
  | .star p, s, caps, k =>
    ((List.range (prefLen p s + 1)).reverse).findSome? (fun i => k (s.drop i) caps)
  | .grp, s, caps, k =>
    (List.range (s.length + 1)).findSome? (fun i => k (s.drop i) (caps ++ [s.take i]))
  | .seq a b, s, caps, k => reMatch a s caps (fun s2 caps2 => reMatch b s2 caps2 k)
  | .alt a b, s, caps, k =>
    match reMatch a s caps k with
    | some r => some r
    | none => reMatch b s caps k

def seqAll : List RE → RE
  | [] => .eps
  | r :: rs => .seq r (seqAll rs)

/-- A keyword with a whitespace star between every two adjacent letters,
as written letter by letter in the source patterns. -/
def spacedCI : PyStr → List RE
  | [] => []
  | [c] => [.lit c]
  | c :: d :: s => .lit c :: .star isPySpace :: spacedCI (d :: s)

/-- pattern_1 of extract_verdict.py (re.DOTALL | re.IGNORECASE). -/
def pattern_1 : RE := seqAll (
  [.star isPySpace] ++ spacedCI (toL "Tatbestand") ++
  [.star isPySpace, .opt ':', .star isPySpace, .chr '\n', .grp, .chr '\n', .star isPySpace] ++
  spacedCI (toL "Entscheidungsgründe") ++
  [.star isPySpace, .opt ':', .star isPySpace, .chr '\n', .grp, .eos])

/-- pattern_2 of extract_verdict.py (re.DOTALL | re.IGNORECASE). -/
def pattern_2 : RE := seqAll (
  [.star isPySpace] ++ spacedCI (toL "Gründe") ++
  [.star isPySpace, .opt ':', .star isPySpace, .chr '\n',
   .star isPySpace, .lit 'I', .star isPySpace, .chr '.', .star isPySpace, .chr '\n',
   .grp, .chr '\n',
   .star isPySpace, .lit 'I', .lit 'I', .star isPySpace, .chr '.', .star isPySpace, .chr '\n',
   .grp,
   .alt (seqAll [.chr '\n', .star isPySpace, .lit 'I', .lit 'I', .lit 'I',
                 .star isPySpace, .chr '.', .star isPySpace, .chr '\n'])
        .eos])

/-- re.Pattern.match: anchored at the start, a prefix match suffices. -/
def pyMatch (re : RE) (s : PyStr) : Option (List PyStr) :=
  reMatch re s [] (fun _ caps => some caps)

/-- The three shapes of dictionary returned by _match_pattern, as a tagged union. -/
inductive MatchResult where
  | format1 (tatbestand entsgruende : PyStr)
  | format2 (bezugnahme begruendung : PyStr)
  | invalid
deriving DecidableEq

/-- _match_pattern: pattern_1 first, pattern_2 only if pattern_1 did not
match, invalid otherwise.  group(1)/group(2) are the two captures. -/
def matchPattern (text : PyStr) : MatchResult :=
  match pyMatch pattern_1 text with
  | some caps => .format1 (caps.getD 0 []) (caps.getD 1 [])
  | none =>
    match pyMatch pattern_2 text with
    | some caps => .format2 (caps.getD 0 []) (caps.getD 1 [])
    | none => .invalid

/-! Python dictionaries with string keys, as insertion-ordered association
lists: assigning to an existing key replaces its value in place, a new key
is appended at the end. -/

abbrev Dict := List (PyStr × PyStr)

def dictKeys (d : Dict) : List PyStr := d.map Prod.fst

def dictInsert (d : Dict) (k v : PyStr) : Dict :=
  if (dictKeys d).contains k then
    d.map (fun kv => if kv.1 == k then (kv.1, v) else kv)
  else d ++ [(k, v)]

/-- dict.update -/
def dictUpdate (d e : Dict) : Dict := e.foldl (fun acc kv => dictInsert acc kv.1 kv.2) d

/-- Nonemptiness of set(a).intersection(b). -/
def keysIntersect (a b : List PyStr) : Bool := a.any (fun x => b.contains x)

/-! The HTML document model.  A SubDiv is a direct child div of a maindiv,
carrying its class attribute and text content.  A MainDiv abstracts one
div of class maindiv: its child divs, the text contents of its descendant
absatzLinks paragraph elements in document order, whether it has an
absatzLinks table descendant, any further text, and its serialised markup.
A Document is the ordered list of its maindivs. -/

structure SubDiv where
  cls : String
  txt : PyStr
deriving DecidableEq

structure MainDiv where
  subDivs : List SubDiv
  absatzParas : List PyStr
  hasAbsatzTable : Bool
  extraText : PyStr
  rawHtml : PyStr
deriving DecidableEq

structure Document where
  mainDivs : List MainDiv
deriving DecidableEq

/-- xpath div[@class="feldbezeichnung"], text contents in document order. -/
def feldbezeichnung (d : MainDiv) : List PyStr :=
  (d.subDivs.filter (fun sd => sd.cls == "feldbezeichnung")).map (fun sd => sd.txt)

/-- xpath union of the three feldinhalt class variants, document order. -/
def feldinhalt (d : MainDiv) : List PyStr :=
  (d.subDivs.filter (fun sd =>
    sd.cls == "feldinhalt" || sd.cls == "feldinhalt tenor" ||
    sd.cls == "feldinhalt leitsaetze")).map (fun sd => sd.txt)

/-- div.text_content(): all text of the subtree (concatenation order is
immaterial for the emptiness test it feeds). -/
def textContent (d : MainDiv) : PyStr :=
  d.extraText ++ (d.subDivs.map (fun sd => sd.txt)).flatten ++ d.absatzParas.flatten

def metaLabels : List PyStr :=
  [toL "Datum", toL "Gericht", toL "Spruchkörper", toL "Entscheidungsart",
   toL "Aktenzeichen", toL "ECLI"]

def leitsaetzeLabels : List PyStr :=
  [toL "Vorinstanz", toL "Nachinstanz", toL "Schlagworte", toL "Normen",
   toL "Leitsätze", toL "Rechtskraft", toL "Sachgebiet"]

/-- _is_meta -/
def is_meta (d : MainDiv) : Bool :=
  (feldbezeichnung d).any (fun t => metaLabels.contains (stripLabel t))

/-- _is_leitsaetze -/
def is_leitsaetze (d : MainDiv) : Bool :=
  (feldbezeichnung d).any (fun t => leitsaetzeLabels.contains (stripLabel t))

/-- _is_tenor -/
def is_tenor (d : MainDiv) : Bool :=
  d.subDivs.any (fun sd => sd.cls == "feldinhalt tenor") ||
  (feldbezeichnung d).any (fun t => stripLabel t == toL "Tenor")

/-- _is_verdict: any descendant absatzLinks paragraph or table. -/
def is_verdict (d : MainDiv) : Bool :=
  !d.absatzParas.isEmpty || d.hasAbsatzTable

/-- _extract_fields: labels and contents paired positionally; zip with
strict=True raises when the lengths differ; a dict comprehension builds the
mapping, a later pair with the same normalised label silently overwriting
an earlier one. -/
def extractFields (d : MainDiv) : Except String Dict :=
  if (feldbezeichnung d).length = (feldinhalt d).length then
    .ok (((feldbezeichnung d).zip (feldinhalt d)).foldl
      (fun acc kv => dictInsert acc (normLabel kv.1) (normWs kv.2)) [])
  else .error "zip strict: lengths differ"

/-- The xpath in extract_verdict is the absolute //p[@class="absatzLinks"]:
it selects every absatzLinks paragraph of the whole document, not only the
passed division's. -/
def docAbsatzParas (doc : Document) : List PyStr :=
  (doc.mainDivs.map (fun d => d.absatzParas)).flatten

/-- "\n\n".join -/
def joinNl2 : List PyStr → PyStr
  | [] => []
  | [t] => t
  | t :: ts => t ++ '\n' :: '\n' :: joinNl2 ts

/-- The text built in extract_verdict: normalise each paragraph, drop the
ones that are empty after stripping, join with a blank line. -/
def joinParas (ps : List PyStr) : PyStr :=
  joinNl2 ((ps.filter (fun p => !(pyStrip p).isEmpty)).map normWs)

/-- extract_verdict(div): because of the absolute xpath, only the document
matters, not the division the call is made for. -/
def extract_verdict (doc : Document) : MatchResult :=
  matchPattern (joinParas (docAbsatzParas doc))

/-- The dictionary extract_verdict returns, flattened from a MatchResult. -/
def verdictDict : MatchResult → Dict
  | .format1 a b =>
    [(toL "format", toL "format_1"), (toL "tatbestand", a), (toL "entscheidungsgründe", b)]
  | .format2 a b =>
    [(toL "format", toL "format_2"), (toL "bezugnahme", a), (toL "begruendung", b)]
  | .invalid => [(toL "format", toL "invalid")]

/-- The mutable MainDivs record of _parse (the fp entry is omitted: it is
never merged into the output dictionary). -/
structure ParseState where
  meta : Dict
  leitsaetze : Dict
  tenor : Dict
  verdict : Dict
  verdict_html : PyStr
deriving DecidableEq

def initState : ParseState := ⟨[], [], [], [], []⟩

def b2n (b : Bool) : Nat := if b then 1 else 0

/-- One iteration of the division loop of _parse.  Logging is not modelled;
a skipped division leaves the state unchanged and raises nothing.  Error
messages keep the source wording minus the interpolated file path, and
"zip strict: lengths differ" stands for the ValueError raised by
zip(..., strict=True). -/
def processDiv (doc : Document) (st : ParseState) (d : MainDiv) : Except String ParseState :=
  if pyStrip (textContent d) = [] then .ok st
  else if 1 < b2n (is_meta d) + b2n (is_leitsaetze d) + b2n (is_tenor d) + b2n (is_verdict d) then
    .ok st
  else if is_meta d then
    if st.meta ≠ [] then .error "Multiple meta divisions found."
    else
      match extractFields d with
      | .error e => .error e
      | .ok f => .ok { st with meta := f }
  else if is_leitsaetze d then
    if st.leitsaetze ≠ [] then .error "Multiple leitsätze divisions found."
    else
      match extractFields d with
      | .error e => .error e
      | .ok f => .ok { st with leitsaetze := f }
  else if is_tenor d then
    if st.tenor ≠ [] then .error "Multiple tenor divisions found."
    else
      match extractFields d with
      | .error e => .error e
      | .ok f => .ok { st with tenor := f }
  else if is_verdict d then
    if st.verdict ≠ [] then .error "Multiple urteil divisions found."
    else .ok { st with verdict := verdictDict (extract_verdict doc), verdict_html := d.rawHtml }
  else .ok st

/-- The division loop of _parse, stopping at the first raised error. -/
def runDivs (doc : Document) : ParseState → List MainDiv → Except String ParseState
  | st, [] => .ok st
  | st, d :: ds =>
    match processDiv doc st d with
    | .error e => .error e
    | .ok st2 => runDivs doc st2 ds

/-- The final merge of _parse: start from meta, union in leitsaetze, tenor
and verdict in turn, checking before each union that the incoming keys do
not intersect the accumulated ones, then set the verdict_html key. -/
def mergeMainDivs (meta leits tenor verdict : Dict) (vh : PyStr) : Except String Dict :=
  if keysIntersect (dictKeys meta) (dictKeys leits) then
    .error "Duplicate keys found between meta and leitsätze."
  else
    let o1 := dictUpdate meta leits
    if keysIntersect (dictKeys o1) (dictKeys tenor) then
      .error "Duplicate keys found between meta and tenor."
    else
      let o2 := dictUpdate o1 tenor
      if keysIntersect (dictKeys o2) (dictKeys verdict) then
        .error "Duplicate keys found between meta and urteil."
      else
        .ok (dictInsert (dictUpdate o2 verdict) (toL "verdict_html") vh)

/-- _parse for one document. -/
def parseDoc (doc : Document) : Except String Dict :=
  match runDivs doc initState doc.mainDivs with
  | .error e => .error e
  | .ok st => mergeMainDivs st.meta st.leitsaetze st.tenor st.verdict st.verdict_html

/-! ### Toolkit: lemmas about the backtracking matcher -/

theorem findSome?_singleton {α : Type} (f : Nat → Option α) (i : Nat) :
    [i].findSome? f = f i := by
  cases h : f i <;> simp [List.findSome?_cons, h]

theorem findSome?_rev_range {α : Type} (f : Nat → Option α) :
    ∀ m : Nat, (∀ i, 1 ≤ i → i ≤ m → f i = none) →
    ((List.range (m + 1)).reverse).findSome? f = f 0 := by
  intro m
  induction m with
  | zero =>
    intro _
    have h1 : List.range 1 = [0] := rfl
    rw [h1]
    simpa using findSome?_singleton f 0
  | succ n ih =>
    intro h
    have h1 : f (n + 1) = none := h (n + 1) (by omega) (by omega)
    have h2 := ih (fun i hi1 hi2 => h i hi1 (by omega))
    rw [List.range_succ, List.reverse_append, List.reverse_singleton, List.singleton_append]
    simp only [List.findSome?_cons, h1]
    exact h2

theorem findSome?_range_at {α : Type} (v : α) :
    ∀ (j : Nat) (f : Nat → Option α) (m : Nat), j ≤ m → (∀ i, i < j → f i = none) →
    f j = some v → (List.range (m + 1)).findSome? f = some v := by
  intro j
  induction j with
  | zero =>
    intro f m _ _ hv
    rw [List.range_succ_eq_map]
    simp [List.findSome?_cons, hv]
  | succ n ih =>
    intro f m hm h0 hv
    obtain ⟨m2, rfl⟩ : ∃ m2, m = m2 + 1 := ⟨m - 1, by omega⟩
    rw [List.range_succ_eq_map]
    have h00 : f 0 = none := h0 0 (by omega)
    simp only [List.findSome?_cons, h00]
    rw [List.findSome?_map]
    exact ih (f ∘ Nat.succ) m2 (by omega) (fun i hi => h0 (i + 1) (by omega)) hv

theorem prefLen_le_length (p : Char → Bool) : ∀ s : PyStr, prefLen p s ≤ s.length := by
  intro s
  induction s with
  | nil => simp [prefLen]
  | cons c t ih =>
    simp only [prefLen, List.length_cons]
    split <;> omega

theorem prefLen_lt_of_mem (p : Char → Bool) :
    ∀ s : PyStr, (∃ c ∈ s, p c = false) → prefLen p s < s.length := by
  intro s
  induction s with
  | nil => rintro ⟨c, hc, _⟩; cases hc
  | cons c t ih =>
    rintro ⟨c0, hc0, hp0⟩
    simp only [prefLen, List.length_cons]
    by_cases hpc : p c
    · rw [if_pos hpc]
      rcases List.mem_cons.mp hc0 with rfl | hmem
      · rw [hpc] at hp0; cases hp0
      · have := ih ⟨c0, hmem, hp0⟩; omega
    · rw [if_neg hpc]; omega

theorem prefLen_append_of_lt (p : Char → Bool) :
    ∀ A M : PyStr, prefLen p A < A.length → prefLen p (A ++ M) = prefLen p A := by
  intro A
  induction A with
  | nil => intro M h; simp [prefLen] at h
  | cons c t ih =>
    intro M h
    by_cases hpc : p c
    · have hR : prefLen p (c :: t) = prefLen p t + 1 := by simp [prefLen, hpc]
      have h2 : prefLen p t < t.length := by
        rw [hR] at h; simpa using h
      calc prefLen p ((c :: t) ++ M) = prefLen p (t ++ M) + 1 := by
            simp [prefLen, hpc]
        _ = prefLen p t + 1 := by rw [ih M h2]
        _ = prefLen p (c :: t) := by rw [hR]
    · simp [prefLen, hpc]

theorem prefLen_stop (p : Char → Bool) :
    ∀ (s : PyStr) (h : prefLen p s < s.length), p (s[prefLen p s]) = false := by
  intro s
  induction s with
  | nil => intro h; simp at h
  | cons c t ih =>
    intro h
    by_cases hpc : p c
    · have he : prefLen p (c :: t) = prefLen p t + 1 := by simp [prefLen, hpc]
      have h2 : prefLen p t < t.length := by
        rw [he] at h; simpa using h
      simp only [he, List.getElem_cons_succ]
      exact ih h2
    · have he : prefLen p (c :: t) = 0 := by simp [prefLen, hpc]
      simp only [he, List.getElem_cons_zero]
      simpa using hpc

theorem mem_takeWhile_of_lt_prefLen (p : Char → Bool) :
    ∀ (s : PyStr) (i : Nat), i < prefLen p s → (h : i < s.length) →
      s[i] ∈ s.takeWhile p := by
  intro s
  induction s with
  | nil => intro i hi h; simp at h
  | cons c t ih =>
    intro i hi h
    by_cases hpc : p c
    · rw [List.takeWhile_cons_of_pos hpc]
      cases i with
      | zero => simp
      | succ j =>
        have hj : j < prefLen p t := by simp [prefLen, hpc] at hi; omega
        have hjl : j < t.length := by simpa using h
        simpa using Or.inr (ih j hj hjl)
    · simp [prefLen, hpc] at hi

/-! Step lemmas: one backtracking step of the matcher on a sequence of
fragments, stated so that proofs can walk a pattern list element by element. -/

theorem step_nil {s : PyStr} {caps : List PyStr}
    {k : PyStr → List PyStr → Option (List PyStr)} :
    reMatch (seqAll []) s caps k = k s caps := rfl

theorem step_cons {r : RE} {rs : List RE} {s : PyStr} {caps : List PyStr}
    {k : PyStr → List PyStr → Option (List PyStr)} :
    reMatch (seqAll (r :: rs)) s caps k
      = reMatch r s caps (fun s2 caps2 => reMatch (seqAll rs) s2 caps2 k) := rfl

theorem seqAll_append (l1 l2 : List RE) :
    ∀ (s : PyStr) (caps : List PyStr) (k : PyStr → List PyStr → Option (List PyStr)),
    reMatch (seqAll (l1 ++ l2)) s caps k
      = reMatch (seqAll l1) s caps (fun s2 caps2 => reMatch (seqAll l2) s2 caps2 k) := by
  induction l1 with
  | nil => intro s caps k; rfl
  | cons r t ih =>
    intro s caps k
    rw [List.cons_append, step_cons, step_cons]
    congr 1
    funext s2 caps2
    exact ih s2 caps2 k

theorem step_chr_eq {c : Char} {rs : List RE} {s : PyStr} {caps : List PyStr}
    {k : PyStr → List PyStr → Option (List PyStr)} :
    reMatch (seqAll (.chr c :: rs)) (c :: s) caps k = reMatch (seqAll rs) s caps k := by
  rw [step_cons]
  simp [reMatch]

theorem step_chr_ne {d c : Char} {rs : List RE} {s : PyStr} {caps : List PyStr}
    {k : PyStr → List PyStr → Option (List PyStr)} (h : d ≠ c) :
    reMatch (seqAll (.chr c :: rs)) (d :: s) caps k = none := by
  rw [step_cons]
  simp [reMatch, h]

theorem step_chr_nil {c : Char} {rs : List RE} {caps : List PyStr}
    {k : PyStr → List PyStr → Option (List PyStr)} :
    reMatch (seqAll (.chr c :: rs)) [] caps k = none := rfl

theorem step_lit_self {c : Char} {rs : List RE} {s : PyStr} {caps : List PyStr}
    {k : PyStr → List PyStr → Option (List PyStr)} :
    reMatch (seqAll (.lit c :: rs)) (c :: s) caps k = reMatch (seqAll rs) s caps k := by
  rw [step_cons]
  simp [reMatch]

theorem step_lit_ne {d c : Char} {rs : List RE} {s : PyStr} {caps : List PyStr}
    {k : PyStr → List PyStr → Option (List PyStr)} (h : lowerCI d ≠ lowerCI c) :
    reMatch (seqAll (.lit c :: rs)) (d :: s) caps k = none := by
  rw [step_cons]
  simp [reMatch, h]

theorem step_eos_nil {rs : List RE} {caps : List PyStr}
    {k : PyStr → List PyStr → Option (List PyStr)} :
    reMatch (seqAll (.eos :: rs)) [] caps k = reMatch (seqAll rs) [] caps k := rfl

theorem step_eos_ne {rs : List RE} {c : Char} {s : PyStr} {caps : List PyStr}
    {k : PyStr → List PyStr → Option (List PyStr)} :
    reMatch (seqAll (.eos :: rs)) (c :: s) caps k = none := rfl

theorem step_opt_eat {c : Char} {rs : List RE} {s : PyStr} {caps : List PyStr}
    {k : PyStr → List PyStr → Option (List PyStr)} {v : List PyStr}
    (h : reMatch (seqAll rs) s caps k = some v) :
    reMatch (seqAll (.opt c :: rs)) (c :: s) caps k = some v := by
  rw [step_cons]
  simp [reMatch, h]

theorem step_star_zero {p : Char → Bool} {rs : List RE} {s : PyStr} {caps : List PyStr}
    {k : PyStr → List PyStr → Option (List PyStr)}
    (h : ∀ i, 1 ≤ i → i ≤ prefLen p s → reMatch (seqAll rs) (s.drop i) caps k = none) :
    reMatch (seqAll (.star p :: rs)) s caps k = reMatch (seqAll rs) s caps k := by
  rw [step_cons]
  show ((List.range (prefLen p s + 1)).reverse).findSome?
      (fun i => reMatch (seqAll rs) (s.drop i) caps k) = _
  rw [findSome?_rev_range _ (prefLen p s) h]
  simp

theorem step_star_head {p : Char → Bool} {c : Char} {rs : List RE} {s : PyStr}
    {caps : List PyStr} {k : PyStr → List PyStr → Option (List PyStr)}
    (h : p c = false) :
    reMatch (seqAll (.star p :: rs)) (c :: s) caps k
      = reMatch (seqAll rs) (c :: s) caps k := by
  apply step_star_zero
  intro i h1 h2
  have : prefLen p (c :: s) = 0 := by simp [prefLen, h]
  omega

theorem step_grp_at {rs : List RE} {s : PyStr} {caps : List PyStr}
    {k : PyStr → List PyStr → Option (List PyStr)} {v : List PyStr} (j : Nat)
    (e : j ≤ s.length)
    (f : ∀ i, i < j → reMatch (seqAll rs) (s.drop i) (caps ++ [s.take i]) k = none)
    (g : reMatch (seqAll rs) (s.drop j) (caps ++ [s.take j]) k = some v) :
    reMatch (seqAll (.grp :: rs)) s caps k = some v := by
  rw [step_cons]
  show (List.range (s.length + 1)).findSome?
      (fun i => reMatch (seqAll rs) (s.drop i) (caps ++ [s.take i]) k) = some v
  exact findSome?_range_at v j _ s.length e f g

theorem step_altL {a b : RE} {rs : List RE} {s : PyStr} {caps : List PyStr}
    {k : PyStr → List PyStr → Option (List PyStr)} {v : List PyStr}
    (h : reMatch a s caps (fun s2 caps2 => reMatch (seqAll rs) s2 caps2 k) = some v) :
    reMatch (seqAll (.alt a b :: rs)) s caps k = some v := by
  rw [step_cons]
  show (match reMatch a s caps _ with
    | some r => some r
    | none => reMatch b s caps _) = some v
  rw [h]

theorem step_alt_none {a b : RE} {rs : List RE} {s : PyStr} {caps : List PyStr}
    {k : PyStr → List PyStr → Option (List PyStr)}
    (h1 : reMatch a s caps (fun s2 caps2 => reMatch (seqAll rs) s2 caps2 k) = none)
    (h2 : reMatch b s caps (fun s2 caps2 => reMatch (seqAll rs) s2 caps2 k) = none) :
    reMatch (seqAll (.alt a b :: rs)) s caps k = none := by
  rw [step_cons]
  show (match reMatch a s caps _ with
    | some r => some r
    | none => reMatch b s caps _) = none
  rw [h1, h2]

theorem spacedCI_consume :
    ∀ w : PyStr, w ≠ [] → (∀ c ∈ w, isPySpace c = false) →
    ∀ (rest : PyStr) (rs : List RE) (caps : List PyStr)
      (k : PyStr → List PyStr → Option (List PyStr)),
    reMatch (seqAll (spacedCI w ++ rs)) (w ++ rest) caps k
      = reMatch (seqAll rs) rest caps k := by
  intro w
  induction w with
  | nil => intro h; cases h rfl
  | cons c t ih =>
    intro _ hw rest rs caps k
    cases t with
    | nil =>
      show reMatch (seqAll (spacedCI [c] ++ rs)) (c :: rest) caps k = _
      rw [show spacedCI [c] = [.lit c] from rfl, List.singleton_append, step_lit_self]
    | cons d t2 =>
      rw [show spacedCI (c :: d :: t2) = .lit c :: .star isPySpace :: spacedCI (d :: t2)
            from rfl,
          List.cons_append, List.cons_append,
          show ((c :: d :: t2) ++ rest) = c :: ((d :: t2) ++ rest) from rfl,
          step_lit_self]
      have hd : isPySpace d = false := hw d (by simp)
      rw [show ((d :: t2) ++ rest) = d :: (t2 ++ rest) from rfl, step_star_head hd]
      exact ih (by simp) (fun x hx => hw x (by simp [hx])) rest rs caps k

/-! Failure helpers: the lazy-group scan and the greedy-star backtracking
fail at every position strictly inside a newline-free segment. -/

theorem chrNl_fail_lt {rs : List RE} (A M : PyStr)
    {k : PyStr → List PyStr → Option (List PyStr)}
    (h : ∀ c ∈ A, c ≠ '\n') :
    ∀ i, i < A.length → ∀ caps,
      reMatch (seqAll (.chr '\n' :: rs)) ((A ++ M).drop i) caps k = none := by
  intro i hi caps
  have hlen : i < (A ++ M).length := by simp; omega
  rw [List.drop_eq_getElem_cons hlen]
  have he : (A ++ M)[i] = A[i] := List.getElem_append_left hi
  rw [he]
  exact step_chr_ne (h A[i] (List.getElem_mem hi))

theorem chrNl_fail_inside {rs : List RE} (A M : PyStr)
    {k : PyStr → List PyStr → Option (List PyStr)} {caps : List PyStr}
    (h1 : ∀ c ∈ A, c ≠ '\n') (h2 : ∃ c ∈ A, isPySpace c = false) :
    ∀ i, 1 ≤ i → i ≤ prefLen isPySpace ('\n' :: (A ++ M)) →
      reMatch (seqAll (.chr '\n' :: rs)) (('\n' :: (A ++ M)).drop i) caps k = none := by
  intro i hi1 hi2
  obtain ⟨j, rfl⟩ : ∃ j, i = j + 1 := ⟨i - 1, by omega⟩
  rw [List.drop_succ_cons]
  have hA : prefLen isPySpace A < A.length := prefLen_lt_of_mem _ A h2
  have hpre : prefLen isPySpace ('\n' :: (A ++ M))
      = prefLen isPySpace (A ++ M) + 1 := by
    simp [prefLen, show isPySpace '\n' = true by decide]
  have happ : prefLen isPySpace (A ++ M) = prefLen isPySpace A :=
    prefLen_append_of_lt _ A M hA
  have hj : j < A.length := by omega
  exact chrNl_fail_lt A M h1 j hj caps

theorem chrNl_fail_ws {rs : List RE} (B : PyStr)
    {k : PyStr → List PyStr → Option (List PyStr)} {caps : List PyStr}
    (h : ∀ c ∈ B.takeWhile isPySpace, c ≠ '\n') :
    ∀ i, 1 ≤ i → i ≤ prefLen isPySpace ('\n' :: B) →
      reMatch (seqAll (.chr '\n' :: rs)) (('\n' :: B).drop i) caps k = none := by
  intro i hi1 hi2
  obtain ⟨j, rfl⟩ : ∃ j, i = j + 1 := ⟨i - 1, by omega⟩
  rw [List.drop_succ_cons]
  have hpre : prefLen isPySpace ('\n' :: B) = prefLen isPySpace B + 1 := by
    simp [prefLen, show isPySpace '\n' = true by decide]
  have hj : j ≤ prefLen isPySpace B := by omega
  by_cases hjB : j < B.length
  · rw [List.drop_eq_getElem_cons hjB]
    have hne : B[j] ≠ '\n' := by
      rcases Nat.lt_or_ge j (prefLen isPySpace B) with hlt | hge
      · exact h B[j] (mem_takeWhile_of_lt_prefLen _ B j hlt hjB)
      · have hj2 : j = prefLen isPySpace B := by omega
        have hstop : isPySpace B[j] = false := by
          subst hj2; exact prefLen_stop _ B hjB
        intro heq
        rw [heq, show isPySpace '\n' = true by decide] at hstop
        exact Bool.noConfusion hstop
    exact step_chr_ne hne
  · have hnil : B.drop j = [] := by
      rw [List.drop_eq_nil_iff]
      omega
    rw [hnil]
    exact step_chr_nil

theorem eos_fail_lt {rs : List RE} (B : PyStr)
    {k : PyStr → List PyStr → Option (List PyStr)} :
    ∀ i, i < B.length → ∀ caps,
      reMatch (seqAll (.eos :: rs)) (B.drop i) caps k = none := by
  intro i hi caps
  rw [List.drop_eq_getElem_cons hi]
  exact step_eos_ne

theorem star_spacedCI_consume :
    ∀ w : PyStr, w ≠ [] → (∀ c ∈ w, isPySpace c = false) →
    ∀ (rest : PyStr) (rs : List RE) (caps : List PyStr)
      (k : PyStr → List PyStr → Option (List PyStr)),
    reMatch (seqAll (.star isPySpace :: (spacedCI w ++ rs))) (w ++ rest) caps k
      = reMatch (seqAll rs) rest caps k := by
  intro w hne hw rest rs caps k
  cases w with
  | nil => cases hne rfl
  | cons c t =>
    rw [List.cons_append, step_star_head (hw c (by simp)), ← List.cons_append]
    exact spacedCI_consume (c :: t) hne hw rest rs caps k

/-! The canonical Format-1 text: a general run of the matcher. -/

theorem pyMatch_p1_canonical (A B : PyStr)
    (hA1 : ∀ c ∈ A, c ≠ '\n') (hA2 : ∃ c ∈ A, isPySpace c = false)
    (hB : ∀ c ∈ B.takeWhile isPySpace, c ≠ '\n') :
    pyMatch pattern_1 (toL "Tatbestand:\n" ++ A ++ toL "\nEntscheidungsgründe:\n" ++ B)
      = some [A, B] := by
  have hsh : toL "Tatbestand:\n" ++ A ++ toL "\nEntscheidungsgründe:\n" ++ B
      = toL "Tatbestand" ++ (':' :: '\n' ::
          (A ++ ('\n' :: (toL "Entscheidungsgründe" ++ (':' :: '\n' :: B))))) := by
    simp only [List.append_assoc]
    rfl
  show reMatch pattern_1 _ [] (fun _ caps => some caps) = some [A, B]
  rw [hsh]
  unfold pattern_1
  simp only [List.append_assoc, List.singleton_append, List.cons_append, List.nil_append]
  rw [star_spacedCI_consume (toL "Tatbestand") (by decide) (by decide)]
  rw [step_star_head (show isPySpace ':' = false by decide)]
  apply step_opt_eat
  rw [step_star_zero (chrNl_fail_inside A _ hA1 hA2)]
  rw [step_chr_eq]
  apply step_grp_at A.length (by simp) (fun i hi => chrNl_fail_lt A _ hA1 i hi _)
  rw [List.drop_left, List.take_left]
  simp only [List.nil_append]
  rw [step_chr_eq]
  rw [star_spacedCI_consume (toL "Entscheidungsgründe") (by decide) (by decide)]
  rw [step_star_head (show isPySpace ':' = false by decide)]
  apply step_opt_eat
  rw [step_star_zero (chrNl_fail_ws B hB)]
  rw [step_chr_eq]
  apply step_grp_at B.length (Nat.le_refl _) (fun i hi => eos_fail_lt B i hi _)
  rw [List.drop_length, List.take_length]
  rfl

theorem step_star_nl_then (c : Char) (t : PyStr) {rs : List RE} {caps : List PyStr}
    {k : PyStr → List PyStr → Option (List PyStr)} (h : isPySpace c = false) :
    reMatch (seqAll (.star isPySpace :: .chr '\n' :: rs)) ('\n' :: c :: t) caps k
      = reMatch (seqAll (.chr '\n' :: rs)) ('\n' :: c :: t) caps k := by
  apply step_star_zero
  intro i h1 h2
  have hp : prefLen isPySpace ('\n' :: c :: t) = 1 := by
    simp [prefLen, h, show isPySpace '\n' = true by decide]
  have hi : i = 1 := by omega
  subst hi
  rw [List.drop_succ_cons, List.drop_zero]
  have hc : c ≠ '\n' := by
    intro he; rw [he, show isPySpace '\n' = true by decide] at h
    exact Bool.noConfusion h
  exact step_chr_ne hc

theorem alt_nl_eos_fail {x : List RE} {d : Char} {t : PyStr} {caps : List PyStr}
    {k : PyStr → List PyStr → Option (List PyStr)} (h : d ≠ '\n') :
    reMatch (seqAll [.alt (seqAll (.chr '\n' :: x)) .eos]) (d :: t) caps k = none := by
  apply step_alt_none
  · exact step_chr_ne h
  · rfl

theorem alt_fail_lt {x : List RE} (B M : PyStr)
    {k : PyStr → List PyStr → Option (List PyStr)}
    (h : ∀ c ∈ B, c ≠ '\n') :
    ∀ i, i < B.length → ∀ caps,
      reMatch (seqAll [.alt (seqAll (.chr '\n' :: x)) .eos]) ((B ++ M).drop i) caps k
        = none := by
  intro i hi caps
  have hlen : i < (B ++ M).length := by simp; omega
  rw [List.drop_eq_getElem_cons hlen,
      show (B ++ M)[i] = B[i] from List.getElem_append_left hi]
  exact alt_nl_eos_fail (h B[i] (List.getElem_mem hi))

/-- pattern_1 cannot match a text whose first character is neither whitespace
nor a T. -/
theorem p1_none_of_head (c : Char) (t : PyStr)
    (h1 : isPySpace c = false) (h2 : lowerCI c ≠ lowerCI 'T') :
    pyMatch pattern_1 (c :: t) = none := by
  show reMatch pattern_1 _ [] _ = none
  unfold pattern_1
  simp only [List.append_assoc, List.singleton_append, List.cons_append]
  rw [show spacedCI (toL "Tatbestand")
        = .lit 'T' :: .star isPySpace :: spacedCI (toL "atbestand") from rfl]
  rw [step_star_head h1, List.cons_append]
  exact step_lit_ne h2

/-! The canonical Format-2 text: a general run of the matcher. -/

theorem pyMatch_p2_canonical (A B C : PyStr)
    (hA1 : ∀ c ∈ A, c ≠ '\n') (hA2 : ∃ c ∈ A, isPySpace c = false)
    (hB1 : ∀ c ∈ B, c ≠ '\n') (hB2 : ∃ c ∈ B, isPySpace c = false)
    (hC : ∀ c ∈ C.takeWhile isPySpace, c ≠ '\n') :
    pyMatch pattern_2
        (toL "Gründe:\nI.\n" ++ A ++ toL "\nII.\n" ++ B ++ toL "\nIII.\n" ++ C)
      = some [A, B] := by
  have hsh : toL "Gründe:\nI.\n" ++ A ++ toL "\nII.\n" ++ B ++ toL "\nIII.\n" ++ C
      = toL "Gründe" ++ (':' :: '\n' :: 'I' :: '.' :: '\n' ::
          (A ++ ('\n' :: 'I' :: 'I' :: '.' :: '\n' ::
            (B ++ ('\n' :: 'I' :: 'I' :: 'I' :: '.' :: '\n' :: C))))) := by
    simp only [List.append_assoc]
    rfl
  show reMatch pattern_2 _ [] (fun _ caps => some caps) = some [A, B]
  rw [hsh]
  unfold pattern_2
  simp only [List.append_assoc, List.singleton_append, List.cons_append, List.nil_append]
  rw [star_spacedCI_consume (toL "Gründe") (by decide) (by decide)]
  rw [step_star_head (show isPySpace ':' = false by decide)]
  apply step_opt_eat
  rw [step_star_nl_then 'I' _ (by decide)]
  rw [step_chr_eq]
  rw [step_star_head (show isPySpace 'I' = false by decide)]
  rw [step_lit_self]
  rw [step_star_head (show isPySpace '.' = false by decide)]
  rw [step_chr_eq]
  rw [step_star_zero (chrNl_fail_inside A _ hA1 hA2)]
  rw [step_chr_eq]
  apply step_grp_at A.length (by simp) (fun i hi => chrNl_fail_lt A _ hA1 i hi _)
  rw [List.drop_left, List.take_left]
  simp only [List.nil_append]
  rw [step_chr_eq]
  rw [step_star_head (show isPySpace 'I' = false by decide)]
  rw [step_lit_self, step_lit_self]
  rw [step_star_head (show isPySpace '.' = false by decide)]
  rw [step_chr_eq]
  rw [step_star_zero (chrNl_fail_inside B _ hB1 hB2)]
  rw [step_chr_eq]
  apply step_grp_at B.length (by simp) (fun i hi => alt_fail_lt B _ hB1 i hi _)
  rw [List.drop_left, List.take_left]
  apply step_altL
  rw [step_chr_eq]
  rw [step_star_head (show isPySpace 'I' = false by decide)]
  rw [step_lit_self, step_lit_self, step_lit_self]
  rw [step_star_head (show isPySpace '.' = false by decide)]
  rw [step_chr_eq]
  rw [step_star_zero (chrNl_fail_ws C hC)]
  rw [step_chr_eq]
  rfl

/-- C2, counterexample: the round-trip fails as universally stated.  For
A = "x\n" and B = "y" (neither contains a header token) the matcher returns
tatbestand = "x", not A: the trailing newline of A is absorbed by the
whitespace star that precedes the second header. -/
theorem C2_counterexample :
    matchPattern
        (toL "Tatbestand:\n" ++ toL "x\n" ++ toL "\nEntscheidungsgründe:\n" ++ toL "y")
      = .format1 (toL "x") (toL "y")
    ∧ toL "x" ≠ toL "x\n" := by
  constructor
  · decide
  · decide

/-- C2 (amended): for A containing no newline and at least one
non-whitespace character, and B whose leading whitespace run contains no
newline, matching "Tatbestand:\n<A>\nEntscheidungsgründe:\n<B>" yields a
Format-1 result with tatbestand = A and entscheidungsgründe = B. -/
theorem C2_amended_match (A B : PyStr)
    (h1 : ∀ c ∈ A, c ≠ '\n') (h2 : ∃ c ∈ A, isPySpace c = false)
    (h3 : ∀ c ∈ B.takeWhile isPySpace, c ≠ '\n') :
    matchPattern (toL "Tatbestand:\n" ++ A ++ toL "\nEntscheidungsgründe:\n" ++ B)
      = .format1 A B := by
  unfold matchPattern
  rw [pyMatch_p1_canonical A B h1 h2 h3]
  rfl

/-- Witness for C2 (amended) at A = "x q", B = " y z". -/
theorem C2_amended_match_witness :
    matchPattern
        (toL "Tatbestand:\n" ++ toL "x q" ++ toL "\nEntscheidungsgründe:\n" ++ toL " y z")
      = .format1 (toL "x q") (toL " y z") :=
  C2_amended_match (toL "x q") (toL " y z") (by decide) (by decide) (by decide)

/-- C9, counterexample: for A = "x", B = "y\n", C = "z" (none containing a
header or sub-header token) the matcher returns begruendung = "y", not B:
the trailing newline of B is absorbed by the whitespace star preceding the
III sub-header. -/
theorem C9_counterexample :
    matchPattern (toL "Gründe:\nI.\n" ++ toL "x" ++ toL "\nII.\n" ++ toL "y\n"
        ++ toL "\nIII.\n" ++ toL "z")
      = .format2 (toL "x") (toL "y")
    ∧ toL "y" ≠ toL "y\n" := by
  constructor
  · decide
  · decide

/-- C9 (amended): for A and B containing no newline and at least one
non-whitespace character each, and C whose leading whitespace run contains
no newline, matching "Gründe:\nI.\n<A>\nII.\n<B>\nIII.\n<C>" yields a
Format-2 result with bezugnahme = A and begruendung = B; C is discarded. -/
theorem C9_amended_match (A B C : PyStr)
    (h1 : ∀ c ∈ A, c ≠ '\n') (h2 : ∃ c ∈ A, isPySpace c = false)
    (h3 : ∀ c ∈ B, c ≠ '\n') (h4 : ∃ c ∈ B, isPySpace c = false)
    (h5 : ∀ c ∈ C.takeWhile isPySpace, c ≠ '\n') :
    matchPattern (toL "Gründe:\nI.\n" ++ A ++ toL "\nII.\n" ++ B ++ toL "\nIII.\n" ++ C)
      = .format2 A B := by
  have hsh : toL "Gründe:\nI.\n" ++ A ++ toL "\nII.\n" ++ B ++ toL "\nIII.\n" ++ C
      = 'G' :: (toL "ründe:\nI.\n" ++ (A ++ (toL "\nII.\n" ++ (B ++ (toL "\nIII.\n" ++ C))))) := by
    simp only [List.append_assoc]
    rfl
  have hp1 : pyMatch pattern_1
      (toL "Gründe:\nI.\n" ++ A ++ toL "\nII.\n" ++ B ++ toL "\nIII.\n" ++ C) = none := by
    rw [hsh]
    exact p1_none_of_head 'G' _ (by decide) (by decide)
  have hp2 := pyMatch_p2_canonical A B C h1 h2 h3 h4 h5
  unfold matchPattern
  rw [hp1, hp2]
  rfl

/-- Witness for C9 (amended) at A = "x", B = "y w", C = "z". -/
theorem C9_amended_match_witness :
    matchPattern (toL "Gründe:\nI.\n" ++ toL "x" ++ toL "\nII.\n" ++ toL "y w"
        ++ toL "\nIII.\n" ++ toL "z")
      = .format2 (toL "x") (toL "y w") :=
  C9_amended_match (toL "x") (toL "y w") (toL "z")
    (by decide) (by decide) (by decide) (by decide) (by decide)

/-- C4: _match_pattern tries pattern_1 first; pattern_2 is attempted only
when pattern_1 does not match at the start; when neither matches the result
is the Invalid tag, which carries no section data, and no error is raised
(the function is total). -/
theorem C4_matchPattern_order :
    (∀ (t a b : PyStr) (r : List PyStr), pyMatch pattern_1 t = some (a :: b :: r) →
        matchPattern t = .format1 a b)
    ∧ (∀ (t a b : PyStr) (r : List PyStr), pyMatch pattern_1 t = none →
        pyMatch pattern_2 t = some (a :: b :: r) → matchPattern t = .format2 a b)
    ∧ (∀ t : PyStr, pyMatch pattern_1 t = none → pyMatch pattern_2 t = none →
        matchPattern t = .invalid) := by
  refine ⟨?_, ?_, ?_⟩
  · intro t a b r h
    unfold matchPattern
    rw [h]
    rfl
  · intro t a b r h1 h2
    unfold matchPattern
    rw [h1, h2]
    rfl
  · intro t h1 h2
    unfold matchPattern
    rw [h1, h2]

/-- Witness for C4 at the text "Random text", which matches neither pattern. -/
theorem C4_matchPattern_order_witness :
    matchPattern (toL "Random text") = .invalid :=
  C4_matchPattern_order.2.2 (toL "Random text") (by decide) (by decide)

/-! ### Toolkit: dictionary lemmas -/

theorem contains_eq_false_iff {a : List PyStr} {x : PyStr} :
    a.contains x = false ↔ x ∉ a := by
  constructor
  · intro h hm
    have h2 := List.elem_eq_true_of_mem hm
    rw [show List.elem x a = a.contains x from rfl, h] at h2
    cases h2
  · intro h
    cases hc : a.contains x
    · rfl
    · exact absurd (List.mem_of_elem_eq_true hc) h

theorem dictKeys_append (d e : Dict) : dictKeys (d ++ e) = dictKeys d ++ dictKeys e := by
  simp [dictKeys]

theorem dictInsert_not_mem {d : Dict} {k v : PyStr}
    (h : (dictKeys d).contains k = false) : dictInsert d k v = d ++ [(k, v)] := by
  unfold dictInsert
  rw [if_neg (by rw [h]; simp)]

theorem dictKeys_insert_not_mem {d : Dict} {k v : PyStr}
    (h : (dictKeys d).contains k = false) :
    dictKeys (dictInsert d k v) = dictKeys d ++ [k] := by
  rw [dictInsert_not_mem h, dictKeys_append]
  rfl

theorem dictInsert_length_ge (d : Dict) (k v : PyStr) :
    d.length ≤ (dictInsert d k v).length := by
  unfold dictInsert
  split
  · simp
  · simp

theorem dictFold_length_ge :
    ∀ (ps : List (PyStr × PyStr)) (acc : Dict),
    acc.length ≤
      (ps.foldl (fun a kv => dictInsert a (normLabel kv.1) (normWs kv.2)) acc).length := by
  intro ps
  induction ps with
  | nil => intro acc; simp
  | cons kv ps2 ih =>
    intro acc
    calc acc.length ≤ (dictInsert acc (normLabel kv.1) (normWs kv.2)).length :=
          dictInsert_length_ge _ _ _
      _ ≤ _ := ih _

theorem extractFold_length :
    ∀ (ps : List (PyStr × PyStr)) (acc : Dict),
    (ps.map (fun kv => normLabel kv.1)).Nodup →
    (∀ x ∈ ps.map (fun kv => normLabel kv.1), (dictKeys acc).contains x = false) →
    (ps.foldl (fun a kv => dictInsert a (normLabel kv.1) (normWs kv.2)) acc).length
      = acc.length + ps.length := by
  intro ps
  induction ps with
  | nil => intro acc _ _; simp
  | cons kv ps2 ih =>
    intro acc hnd hfr
    rw [List.map_cons] at hnd
    have hnotin : normLabel kv.1 ∉ ps2.map (fun kv => normLabel kv.1) :=
      (List.nodup_cons.mp hnd).1
    have hnd2 : (ps2.map (fun kv => normLabel kv.1)).Nodup := (List.nodup_cons.mp hnd).2
    have hk : (dictKeys acc).contains (normLabel kv.1) = false := hfr _ (by simp)
    rw [List.foldl_cons]
    rw [ih (dictInsert acc (normLabel kv.1) (normWs kv.2)) hnd2 ?fresh]
    · rw [dictInsert_not_mem hk]
      simp only [List.length_append, List.length_cons, List.length_nil]
      omega
    case fresh =>
      intro x hx
      rw [dictKeys_insert_not_mem hk, contains_eq_false_iff]
      intro hm
      rcases List.mem_append.mp hm with hma | hmb
      · exact absurd hma (contains_eq_false_iff.mp (hfr x (by simp; right; simpa using hx)))
      · have hxx : x = normLabel kv.1 := by simpa using hmb
        exact hnotin (hxx ▸ hx)

theorem dictUpdate_append :
    ∀ (e d : Dict), (dictKeys e).Nodup →
    (∀ x ∈ dictKeys e, (dictKeys d).contains x = false) → dictUpdate d e = d ++ e := by
  intro e
  induction e with
  | nil => intro d _ _; simp [dictUpdate]
  | cons kv e2 ih =>
    intro d hnd hfr
    rw [show dictKeys (kv :: e2) = kv.1 :: dictKeys e2 from rfl] at hnd hfr
    have hk : (dictKeys d).contains kv.1 = false := hfr kv.1 (by simp)
    have hnotin : kv.1 ∉ dictKeys e2 := (List.nodup_cons.mp hnd).1
    have hnd2 : (dictKeys e2).Nodup := (List.nodup_cons.mp hnd).2
    simp only [dictUpdate, List.foldl_cons]
    rw [dictInsert_not_mem hk]
    have h1 : dictUpdate (d ++ [(kv.1, kv.2)]) e2 = (d ++ [(kv.1, kv.2)]) ++ e2 := by
      apply ih _ hnd2
      intro x hx
      rw [dictKeys_append, contains_eq_false_iff]
      intro hm
      rcases List.mem_append.mp hm with hma | hmb
      · exact absurd hma (contains_eq_false_iff.mp (hfr x (by simp [hx])))
      · have hxx : x = kv.1 := by simpa [dictKeys] using hmb
        exact hnotin (hxx ▸ hx)
    simp only [dictUpdate] at h1
    rw [h1]
    simp

theorem keysIntersect_flip {a b : List PyStr} (h : keysIntersect a b = false) :
    ∀ x ∈ b, a.contains x = false := by
  intro x hx
  rw [contains_eq_false_iff]
  intro hma
  have h2 := List.any_eq_false.mp h x hma
  exact h2 (by simpa using List.elem_eq_true_of_mem hx)

theorem keysIntersect_append_false {a b c : List PyStr}
    (h1 : keysIntersect a c = false) (h2 : keysIntersect b c = false) :
    keysIntersect (a ++ b) c = false := by
  unfold keysIntersect at *
  rw [List.any_append, h1, h2]
  rfl

/-- C1: the final merge starts from the Metadata mapping and unions in the
Principles, Summary and Verdict mappings in turn.  Before each union, a
non-empty intersection between the incoming keys and the accumulated keys
raises the duplicate-key error; with all four key sets pairwise disjoint
the merge succeeds and the Record is exactly their union followed by the
reserved verdict_html key. -/
theorem C1_merge_invariant (m l t v : Dict) (vh : PyStr) :
    (keysIntersect (dictKeys m) (dictKeys l) = true →
      mergeMainDivs m l t v vh = .error "Duplicate keys found between meta and leitsätze.")
    ∧ (keysIntersect (dictKeys m) (dictKeys l) = false →
        keysIntersect (dictKeys (dictUpdate m l)) (dictKeys t) = true →
        mergeMainDivs m l t v vh = .error "Duplicate keys found between meta and tenor.")
    ∧ (keysIntersect (dictKeys m) (dictKeys l) = false →
        keysIntersect (dictKeys (dictUpdate m l)) (dictKeys t) = false →
        keysIntersect (dictKeys (dictUpdate (dictUpdate m l) t)) (dictKeys v) = true →
        mergeMainDivs m l t v vh = .error "Duplicate keys found between meta and urteil.")
    ∧ ((dictKeys l).Nodup → (dictKeys t).Nodup → (dictKeys v).Nodup →
        keysIntersect (dictKeys m) (dictKeys l) = false →
        keysIntersect (dictKeys m) (dictKeys t) = false →
        keysIntersect (dictKeys l) (dictKeys t) = false →
        keysIntersect (dictKeys m) (dictKeys v) = false →
        keysIntersect (dictKeys l) (dictKeys v) = false →
        keysIntersect (dictKeys t) (dictKeys v) = false →
        (dictKeys m ++ dictKeys l ++ dictKeys t ++ dictKeys v).contains
          (toL "verdict_html") = false →
        mergeMainDivs m l t v vh
          = .ok (m ++ l ++ t ++ v ++ [(toL "verdict_html", vh)])) := by
  refine ⟨?_, ?_, ?_, ?_⟩
  · intro h
    unfold mergeMainDivs
    rw [if_pos (by rw [h])]
  · intro h1 h2
    unfold mergeMainDivs
    rw [if_neg (by rw [h1]; simp), if_pos (by rw [h2])]
  · intro h1 h2 h3
    unfold mergeMainDivs
    rw [if_neg (by rw [h1]; simp), if_neg (by rw [h2]; simp), if_pos (by rw [h3])]
  · intro hnl hnt hnv h12 h13 h23 h14 h24 h34 hvh
    have hul : dictUpdate m l = m ++ l :=
      dictUpdate_append l m hnl (keysIntersect_flip h12)
    have hk1 : dictKeys (dictUpdate m l) = dictKeys m ++ dictKeys l := by
      rw [hul, dictKeys_append]
    have h2f : keysIntersect (dictKeys (dictUpdate m l)) (dictKeys t) = false := by
      rw [hk1]
      exact keysIntersect_append_false h13 h23
    have hut : dictUpdate (dictUpdate m l) t = (m ++ l) ++ t := by
      rw [hul]
      apply dictUpdate_append t (m ++ l) hnt
      intro x hx
      have h5 := keysIntersect_flip h2f x hx
      rw [hk1] at h5
      rw [dictKeys_append]
      exact h5
    have hk2 : dictKeys (dictUpdate (dictUpdate m l) t)
        = dictKeys m ++ dictKeys l ++ dictKeys t := by
      rw [hut, dictKeys_append, dictKeys_append]
    have h3f : keysIntersect (dictKeys (dictUpdate (dictUpdate m l) t)) (dictKeys v)
        = false := by
      rw [hk2]
      exact keysIntersect_append_false (keysIntersect_append_false h14 h24) h34
    have huv : dictUpdate (dictUpdate (dictUpdate m l) t) v = ((m ++ l) ++ t) ++ v := by
      rw [hut]
      apply dictUpdate_append v ((m ++ l) ++ t) hnv
      intro x hx
      have h5 := keysIntersect_flip h3f x hx
      rw [hk2] at h5
      rw [dictKeys_append, dictKeys_append]
      exact h5
    unfold mergeMainDivs
    rw [if_neg (by rw [h12]; simp), if_neg (by rw [h2f]; simp), if_neg (by rw [h3f]; simp)]
    rw [huv]
    rw [dictInsert_not_mem (by
      rw [dictKeys_append, dictKeys_append, dictKeys_append]
      simpa [List.append_assoc] using hvh)]

/-- Witness for C1 at small concrete mappings. -/
theorem C1_merge_invariant_witness :
    mergeMainDivs [(toL "a", toL "1")] [(toL "b", toL "2")] []
        [(toL "c", toL "3")] (toL "H")
      = .ok [(toL "a", toL "1"), (toL "b", toL "2"), (toL "c", toL "3"),
             (toL "verdict_html", toL "H")] :=
  (C1_merge_invariant [(toL "a", toL "1")] [(toL "b", toL "2")] []
      [(toL "c", toL "3")] (toL "H")).2.2.2
    (by decide) (by decide) (by decide) (by decide) (by decide) (by decide)
    (by decide) (by decide) (by decide) (by decide)

/-! ### Division classification and extraction lemmas -/

instance {ε α : Type} [DecidableEq ε] [DecidableEq α] : DecidableEq (Except ε α) :=
  fun a b =>
    match a, b with
    | .ok x, .ok y =>
      if h : x = y then isTrue (by rw [h]) else isFalse (by intro he; cases he; exact h rfl)
    | .error x, .error y =>
      if h : x = y then isTrue (by rw [h]) else isFalse (by intro he; cases he; exact h rfl)
    | .ok _, .error _ => isFalse (by intro he; cases he)
    | .error _, .ok _ => isFalse (by intro he; cases he)

/-- C7: a division for which two or more of the four classification rules
hold simultaneously is skipped: the loop state is returned unchanged (so no
fields reach the Record) and no exception is raised to the caller. -/
theorem C7_ambiguous_skipped (doc : Document) (st : ParseState) (d : MainDiv)
    (h : 2 ≤ b2n (is_meta d) + b2n (is_leitsaetze d) + b2n (is_tenor d) + b2n (is_verdict d)) :
    processDiv doc st d = .ok st := by
  unfold processDiv
  split
  · rfl
  · rw [if_pos (by omega)]

def divC7 : MainDiv :=
  ⟨[⟨"feldbezeichnung", toL "Datum"⟩], [toL "p"], false, [], []⟩

/-- Witness for C7: a division carrying both a Metadata label and an
absatzLinks paragraph is skipped. -/
theorem C7_ambiguous_skipped_witness :
    processDiv ⟨[divC7]⟩ initState divC7 = .ok initState :=
  C7_ambiguous_skipped ⟨[divC7]⟩ initState divC7 (by decide)

def divC3a : MainDiv :=
  ⟨[⟨"feldbezeichnung", toL "Datum"⟩, ⟨"feldinhalt", toL "w"⟩],
   [toL "Tatbestand:"], false, [], toL "raw1"⟩

def divC3b : MainDiv :=
  ⟨[], [toL "x", toL "Entscheidungsgründe:", toL "y"], false, [], toL "raw2"⟩

def docC3 : Document := ⟨[divC3a, divC3b]⟩

/-- C3 (code bug): the text fed to the verdict matcher is built from the
absatzLinks paragraphs of the whole document (absolute xpath //p), not only
from the Verdict division's own paragraphs.  In docC3 the first division is
ambiguous and skipped, yet its paragraph "Tatbestand:" still reaches the
matcher: the pipeline reports format_1, while the Verdict division's own
normalised, double-newline-joined text matches neither pattern. -/
theorem C3_verdict_text_document_wide :
    parseDoc docC3 = .ok [(toL "format", toL "format_1"), (toL "tatbestand", toL "x"),
        (toL "entscheidungsgründe", toL "y"), (toL "verdict_html", toL "raw2")]
    ∧ extract_verdict docC3 = .format1 (toL "x") (toL "y")
    ∧ matchPattern (joinParas divC3b.absatzParas) = .invalid := by
  refine ⟨by decide, by decide, by decide⟩

def divC5 : MainDiv :=
  ⟨[⟨"feldbezeichnung", toL "Datum"⟩, ⟨"feldbezeichnung", toL "Datum:"⟩,
    ⟨"feldinhalt", toL "x"⟩, ⟨"feldinhalt", toL "y"⟩], [], false, [], []⟩

/-- C5 counterexample: a Metadata division whose label and content
sequences both have length 2 but whose labels normalise to the same key
returns a one-entry mapping, not two entries: the dict comprehension
silently lets the later pair win. -/
theorem C5_counterexample :
    is_meta divC5 = true
    ∧ (feldbezeichnung divC5).length = 2
    ∧ (feldinhalt divC5).length = 2
    ∧ extractFields divC5 = .ok [(toL "datum", toL "y")] := by
  refine ⟨by decide, by decide, by decide, by decide⟩

/-- C5 (amended): when the label and content sequences have the same length
L, the labels are Latin-1 (the range on which the embedded str.lower is
exact, so distinctness of the normalised labels is the program's notion) and
the normalised labels are pairwise distinct, the extractor returns a mapping
of exactly L pairs; when the lengths differ it raises the
field-count-mismatch (strict zip) error. -/
theorem C5_extract_fields (d : MainDiv) (L : Nat) :
    ((feldbezeichnung d).length = L → (feldinhalt d).length = L →
      (∀ t ∈ feldbezeichnung d, ∀ c ∈ t, c.toNat < 256) →
      ((feldbezeichnung d).map normLabel).Nodup →
      ∃ f, extractFields d = .ok f ∧ f.length = L)
    ∧ ((feldbezeichnung d).length ≠ (feldinhalt d).length →
      extractFields d = .error "zip strict: lengths differ") := by
  constructor
  · intro hk hv _ hnd
    have hok : extractFields d = .ok (((feldbezeichnung d).zip (feldinhalt d)).foldl
        (fun acc kv => dictInsert acc (normLabel kv.1) (normWs kv.2)) []) := by
      unfold extractFields
      rw [if_pos (by omega)]
    refine ⟨_, hok, ?_⟩
    have hzip : ((feldbezeichnung d).zip (feldinhalt d)).map
        (fun kv => normLabel kv.1) = (feldbezeichnung d).map normLabel := by
      rw [show (fun kv : PyStr × PyStr => normLabel kv.1)
            = normLabel ∘ Prod.fst from rfl, ← List.map_map]
      rw [List.map_fst_zip _ _ (by omega)]
    have hlen := extractFold_length ((feldbezeichnung d).zip (feldinhalt d)) []
      (by rw [hzip]; exact hnd) (by intro x _; rfl)
    rw [hlen]
    rw [List.length_zip]
    simp [hk, hv]
  · intro hne
    unfold extractFields
    rw [if_neg hne]

def divW5 : MainDiv :=
  ⟨[⟨"feldbezeichnung", toL "Datum"⟩, ⟨"feldbezeichnung", toL "Gericht"⟩,
    ⟨"feldinhalt", toL "x"⟩, ⟨"feldinhalt", toL "y"⟩], [], false, [], []⟩

/-- Witness for C5 (amended) at a two-field Metadata division. -/
theorem C5_extract_fields_witness :
    ∃ f, extractFields divW5 = .ok f ∧ f.length = 2 :=
  (C5_extract_fields divW5 2).1 (by decide) (by decide) (by decide) (by decide)

theorem is_tenor_nonempty (d : MainDiv) (h : is_tenor d = true) :
    feldbezeichnung d ≠ [] ∨ feldinhalt d ≠ [] := by
  unfold is_tenor at h
  rw [Bool.or_eq_true] at h
  rcases h with h | h
  · right
    rw [List.any_eq_true] at h
    obtain ⟨sd, hmem, hcls⟩ := h
    intro hnil
    have hin : sd.txt ∈ feldinhalt d := by
      unfold feldinhalt
      apply List.mem_map_of_mem
      rw [List.mem_filter]
      exact ⟨hmem, by simp [hcls]⟩
    rw [hnil] at hin
    cases hin
  · left
    rw [List.any_eq_true] at h
    obtain ⟨t, hmem, _⟩ := h
    intro hnil
    rw [hnil] at hmem
    cases hmem

theorem is_meta_nonempty (d : MainDiv) (h : is_meta d = true) :
    feldbezeichnung d ≠ [] := by
  unfold is_meta at h
  rw [List.any_eq_true] at h
  obtain ⟨t, hmem, _⟩ := h
  intro hnil
  rw [hnil] at hmem
  cases hmem

theorem extractFields_ok_nonempty (d : MainDiv) (f : Dict)
    (hne : feldbezeichnung d ≠ [] ∨ feldinhalt d ≠ [])
    (hf : extractFields d = .ok f) : f ≠ [] := by
  unfold extractFields at hf
  by_cases hlen : (feldbezeichnung d).length = (feldinhalt d).length
  · rw [if_pos hlen] at hf
    injection hf with hfe
    have hk : feldbezeichnung d ≠ [] := by
      rcases hne with h | h
      · exact h
      · intro hnil
        rw [hnil] at hlen
        exact h (List.eq_nil_of_length_eq_zero hlen.symm)
    obtain ⟨k0, ks, hks⟩ := List.exists_cons_of_ne_nil hk
    have hv : ∃ v0 vs, feldinhalt d = v0 :: vs := by
      cases hvv : feldinhalt d with
      | nil => rw [hks, hvv] at hlen; simp at hlen
      | cons v0 vs => exact ⟨v0, vs, rfl⟩
    obtain ⟨v0, vs, hvs⟩ := hv
    rw [← hfe, hks, hvs, List.zip_cons_cons, List.foldl_cons]
    have h1 : dictInsert [] (normLabel k0) (normWs v0)
        = [(normLabel k0, normWs v0)] := rfl
    rw [h1]
    have hge := dictFold_length_ge (ks.zip vs) [(normLabel k0, normWs v0)]
    intro hnil
    rw [hnil] at hge
    simp at hge
  · rw [if_neg hlen] at hf
    cases hf

theorem processDiv_tenor_dup (doc : Document) (st : ParseState) (d : MainDiv)
    (hnb : pyStrip (textContent d) ≠ []) (ht : is_tenor d = true)
    (hm : is_meta d = false) (hl : is_leitsaetze d = false) (hv : is_verdict d = false)
    (hne : st.tenor ≠ []) :
    processDiv doc st d = .error "Multiple tenor divisions found." := by
  unfold processDiv
  rw [if_neg hnb, if_neg (by simp [b2n, hm, hl, ht, hv]), if_neg (by simp [hm]),
      if_neg (by simp [hl]), if_pos ht, if_pos hne]

theorem processDiv_tenor_sets (doc : Document) (st : ParseState) (d : MainDiv)
    (st2 : ParseState) (hok : processDiv doc st d = .ok st2)
    (h0 : st.tenor = []) (ht : is_tenor d = true) (hm : is_meta d = false)
    (hl : is_leitsaetze d = false) (hv : is_verdict d = false)
    (hnb : pyStrip (textContent d) ≠ []) :
    st2.tenor ≠ [] := by
  unfold processDiv at hok
  rw [if_neg hnb, if_neg (by simp [b2n, hm, hl, ht, hv]), if_neg (by simp [hm]),
      if_neg (by simp [hl]), if_pos ht, if_neg (by simp [h0])] at hok
  cases hf : extractFields d with
  | error e => rw [hf] at hok; cases hok
  | ok f =>
    rw [hf] at hok
    injection hok with hfe
    rw [← hfe]
    show f ≠ []
    exact extractFields_ok_nonempty d f (is_tenor_nonempty d ht) hf

/-- C10 (amended): the duplicate-section check is a non-emptiness test on
the stored mapping, but the claimed silent-replacement path is unreachable:
a Summary division that is processed successfully always stores a non-empty
mapping (part 2), so a second Summary division of a populated category
always raises the duplicate-section error (part 1). -/
theorem C10_tenor_nonempty_guard (doc : Document) (st : ParseState) (d : MainDiv) :
    (pyStrip (textContent d) ≠ [] → is_tenor d = true → is_meta d = false →
      is_leitsaetze d = false → is_verdict d = false → st.tenor ≠ [] →
      processDiv doc st d = .error "Multiple tenor divisions found.")
    ∧ (∀ st2, processDiv doc st d = .ok st2 → st.tenor = [] → is_tenor d = true →
        is_meta d = false → is_leitsaetze d = false → is_verdict d = false →
        pyStrip (textContent d) ≠ [] → st2.tenor ≠ []) :=
  ⟨fun hnb ht hm hl hv hne => processDiv_tenor_dup doc st d hnb ht hm hl hv hne,
   fun st2 hok h0 ht hm hl hv hnb =>
     processDiv_tenor_sets doc st d st2 hok h0 ht hm hl hv hnb⟩

def divC10 : MainDiv := ⟨[⟨"feldinhalt tenor", toL "E1"⟩], [], false, [], []⟩

def docC10 : Document := ⟨[divC10]⟩

/-- C10, counterexample to the claimed premise: a division carrying the
tenor content marker with zero label/content pairs is classified Summary
but does not produce an empty mapping; the marker element itself is
selected as content, so the strict zip raises the length-mismatch error. -/
theorem C10_counterexample :
    is_tenor divC10 = true
    ∧ feldbezeichnung divC10 = []
    ∧ processDiv docC10 initState divC10 = .error "zip strict: lengths differ" := by
  refine ⟨by decide, by decide, by decide⟩

def divW10 : MainDiv :=
  ⟨[⟨"feldbezeichnung", toL "Tenor"⟩, ⟨"feldinhalt", toL "S"⟩], [], false, [], []⟩

def stW10 : ParseState := ⟨[], [], [(toL "tenor", toL "S")], [], []⟩

/-- Witness for C10 (amended), first part, at a concrete second Summary
division meeting a populated tenor category. -/
theorem C10_tenor_nonempty_guard_witness :
    processDiv ⟨[divW10]⟩ stW10 divW10 = .error "Multiple tenor divisions found." :=
  (C10_tenor_nonempty_guard ⟨[divW10]⟩ stW10 divW10).1
    (by decide) (by decide) (by decide) (by decide) (by decide) (by decide)

/-! ### The division loop: duplicate Metadata sections -/

theorem runDivs_append (doc : Document) :
    ∀ (l1 l2 : List MainDiv) (st : ParseState),
    runDivs doc st (l1 ++ l2)
      = match runDivs doc st l1 with
        | .error e => .error e
        | .ok st2 => runDivs doc st2 l2 := by
  intro l1
  induction l1 with
  | nil => intro l2 st; rfl
  | cons d l1t ih =>
    intro l2 st
    show (match processDiv doc st d with
      | .error e => Except.error e
      | .ok st2 => runDivs doc st2 (l1t ++ l2)) = _
    cases h : processDiv doc st d with
    | error e => simp [runDivs, h]
    | ok st2 => simp [runDivs, h, ih]

theorem processDiv_meta_preserved (doc : Document) (st : ParseState) (d : MainDiv)
    (st2 : ParseState) (h : processDiv doc st d = .ok st2) (hm : st.meta ≠ []) :
    st2.meta ≠ [] := by
  unfold processDiv at h
  repeat' split at h
  all_goals try (injection h with he; subst he)
  all_goals simp_all

theorem runDivs_meta_preserved (doc : Document) :
    ∀ (l : List MainDiv) (st st2 : ParseState),
    runDivs doc st l = .ok st2 → st.meta ≠ [] → st2.meta ≠ [] := by
  intro l
  induction l with
  | nil => intro st st2 h hm; injection h with he; rw [← he]; exact hm
  | cons d lt ih =>
    intro st st2 h hm
    unfold runDivs at h
    cases hp : processDiv doc st d with
    | error e => rw [hp] at h; cases h
    | ok st3 =>
      rw [hp] at h
      exact ih st3 st2 h (processDiv_meta_preserved doc st d st3 hp hm)

theorem processDiv_meta_dup (doc : Document) (st : ParseState) (d : MainDiv)
    (hnb : pyStrip (textContent d) ≠ []) (hm : is_meta d = true)
    (hl : is_leitsaetze d = false) (ht : is_tenor d = false) (hv : is_verdict d = false)
    (hne : st.meta ≠ []) :
    processDiv doc st d = .error "Multiple meta divisions found." := by
  unfold processDiv
  rw [if_neg hnb, if_neg (by simp [b2n, hm, hl, ht, hv]), if_pos hm, if_pos hne]

theorem processDiv_meta_sets (doc : Document) (st : ParseState) (d : MainDiv)
    (st2 : ParseState) (hok : processDiv doc st d = .ok st2)
    (hm : is_meta d = true) (hl : is_leitsaetze d = false) (ht : is_tenor d = false)
    (hv : is_verdict d = false) (hnb : pyStrip (textContent d) ≠ []) :
    st2.meta ≠ [] := by
  unfold processDiv at hok
  rw [if_neg hnb, if_neg (by simp [b2n, hm, hl, ht, hv]), if_pos hm] at hok
  by_cases h0 : st.meta ≠ []
  · rw [if_pos h0] at hok; cases hok
  · rw [if_neg h0] at hok
    cases hf : extractFields d with
    | error e => rw [hf] at hok; cases hok
    | ok f =>
      rw [hf] at hok
      injection hok with hfe
      rw [← hfe]
      show f ≠ []
      exact extractFields_ok_nonempty d f (Or.inl (is_meta_nonempty d hm)) hf

/-- C8: a document containing two divisions that each match only the
Metadata rule (and are non-blank), where the loop reaches the second one
without an earlier error, raises the duplicate-section error for Metadata
rather than overwriting or merging the first division's fields. -/
theorem C8_duplicate_meta (doc : Document) (pre mid post : List MainDiv)
    (d1 d2 : MainDiv) (st : ParseState)
    (hdoc : doc.mainDivs = pre ++ d1 :: mid ++ d2 :: post)
    (h1m : is_meta d1 = true) (h1l : is_leitsaetze d1 = false)
    (h1t : is_tenor d1 = false) (h1v : is_verdict d1 = false)
    (h1b : pyStrip (textContent d1) ≠ [])
    (h2m : is_meta d2 = true) (h2l : is_leitsaetze d2 = false)
    (h2t : is_tenor d2 = false) (h2v : is_verdict d2 = false)
    (h2b : pyStrip (textContent d2) ≠ [])
    (hrun : runDivs doc initState (pre ++ d1 :: mid) = .ok st) :
    parseDoc doc = .error "Multiple meta divisions found." := by
  have hrun1 := hrun
  rw [runDivs_append doc pre (d1 :: mid) initState] at hrun1
  cases hp : runDivs doc initState pre with
  | error e => simp [hp] at hrun1
  | ok stp =>
    rw [hp] at hrun1
    have hrun2 : runDivs doc stp (d1 :: mid) = .ok st := hrun1
    unfold runDivs at hrun2
    have hd1 : ∃ st1, processDiv doc stp d1 = .ok st1 ∧ runDivs doc st1 mid = .ok st := by
      cases hq : processDiv doc stp d1 with
      | error e => simp [hq] at hrun2
      | ok st1 =>
        rw [hq] at hrun2
        exact ⟨st1, rfl, hrun2⟩
    obtain ⟨st1, hq, hrest⟩ := hd1
    have hst1 : st1.meta ≠ [] :=
      processDiv_meta_sets doc stp d1 st1 hq h1m h1l h1t h1v h1b
    have hstm : st.meta ≠ [] := runDivs_meta_preserved doc mid st1 st hrest hst1
    have herr : processDiv doc st d2 = .error "Multiple meta divisions found." :=
      processDiv_meta_dup doc st d2 h2b h2m h2l h2t h2v hstm
    have hfull : runDivs doc initState ((pre ++ d1 :: mid) ++ (d2 :: post))
        = .error "Multiple meta divisions found." := by
      rw [runDivs_append doc (pre ++ d1 :: mid) (d2 :: post) initState, hrun]
      show runDivs doc st (d2 :: post) = _
      unfold runDivs
      rw [herr]
    unfold parseDoc
    rw [hdoc, show pre ++ d1 :: mid ++ d2 :: post = (pre ++ d1 :: mid) ++ (d2 :: post)
        from by simp, hfull]

def divW8 : MainDiv :=
  ⟨[⟨"feldbezeichnung", toL "Datum"⟩, ⟨"feldinhalt", toL "X"⟩], [], false, [], []⟩

def docW8 : Document := ⟨[divW8, divW8]⟩

/-- Witness for C8 at a concrete two-Metadata-division document. -/
theorem C8_duplicate_meta_witness :
    parseDoc docW8 = .error "Multiple meta divisions found." :=
  C8_duplicate_meta docW8 [] [] [] divW8 divW8
    ⟨[(toL "datum", toL "X")], [], [], [], []⟩ rfl
    (by decide) (by decide) (by decide) (by decide) (by decide)
    (by decide) (by decide) (by decide) (by decide) (by decide)
    (by decide)

/-! ### Label normalisation: character-level lemmas -/

theorem toNat_ofNat_valid (n : Nat) (h : n < 55296) : (Char.ofNat n).toNat = n := by
  have hv : n.isValidChar := Or.inl h
  rw [Char.ofNat, dif_pos hv]
  rfl

theorem lowerCI_toNat {c : Char} (h : 65 ≤ c.toNat ∧ c.toNat ≤ 90) :
    (lowerCI c).toNat = c.toNat + 32 := by
  rw [show lowerCI c = if 65 ≤ c.toNat ∧ c.toNat ≤ 90 then Char.ofNat (c.toNat + 32)
        else if 192 ≤ c.toNat ∧ c.toNat ≤ 222 ∧ c.toNat ≠ 215 then Char.ofNat (c.toNat + 32)
        else c from rfl, if_pos h]
  exact toNat_ofNat_valid _ (by omega)

theorem lowerCI_toNat_latin {c : Char}
    (h : 192 ≤ c.toNat ∧ c.toNat ≤ 222 ∧ c.toNat ≠ 215) :
    (lowerCI c).toNat = c.toNat + 32 := by
  rw [show lowerCI c = if 65 ≤ c.toNat ∧ c.toNat ≤ 90 then Char.ofNat (c.toNat + 32)
        else if 192 ≤ c.toNat ∧ c.toNat ≤ 222 ∧ c.toNat ≠ 215 then Char.ofNat (c.toNat + 32)
        else c from rfl, if_neg (by omega), if_pos h]
  exact toNat_ofNat_valid _ (by omega)

theorem lowerCI_other {c : Char} (h : ¬(65 ≤ c.toNat ∧ c.toNat ≤ 90))
    (u : ¬(192 ≤ c.toNat ∧ c.toNat ≤ 222 ∧ c.toNat ≠ 215)) :
    lowerCI c = c := by
  rw [show lowerCI c = if 65 ≤ c.toNat ∧ c.toNat ≤ 90 then Char.ofNat (c.toNat + 32)
        else if 192 ≤ c.toNat ∧ c.toNat ≤ 222 ∧ c.toNat ≠ 215 then Char.ofNat (c.toNat + 32)
        else c from rfl, if_neg h, if_neg u]

theorem lowerCI_idem (c : Char) : lowerCI (lowerCI c) = lowerCI c := by
  by_cases h : 65 ≤ c.toNat ∧ c.toNat ≤ 90
  · have h1 : (lowerCI c).toNat = c.toNat + 32 := lowerCI_toNat h
    exact lowerCI_other (by omega) (by omega)
  · by_cases u : 192 ≤ c.toNat ∧ c.toNat ≤ 222 ∧ c.toNat ≠ 215
    · have h1 : (lowerCI c).toNat = c.toNat + 32 := lowerCI_toNat_latin u
      exact lowerCI_other (by omega) (by omega)
    · rw [lowerCI_other h u, lowerCI_other h u]

theorem beq_false_of_toNat_ne {c d : Char} (h : c.toNat ≠ d.toNat) : (c == d) = false := by
  cases hb : c == d
  · rfl
  · exact absurd (congrArg Char.toNat (eq_of_beq hb)) h

theorem isPySpace_of_toNat {c : Char} (h1 : 33 ≤ c.toNat) (h2 : c.toNat ≠ 133)
    (h3 : c.toNat ≠ 160) (h4 : c.toNat < 5760) : isPySpace c = false := by
  unfold isPySpace
  simp only [decide_eq_false_iff_not]
  omega

theorem isPySpace_lowerCI (c : Char) : isPySpace (lowerCI c) = isPySpace c := by
  by_cases h : 65 ≤ c.toNat ∧ c.toNat ≤ 90
  · have h1 : (lowerCI c).toNat = c.toNat + 32 := lowerCI_toNat h
    have ha : isPySpace c = false :=
      isPySpace_of_toNat (by omega) (by omega) (by omega) (by omega)
    have hb : isPySpace (lowerCI c) = false :=
      isPySpace_of_toNat (by omega) (by omega) (by omega) (by omega)
    rw [ha, hb]
  · by_cases u : 192 ≤ c.toNat ∧ c.toNat ≤ 222 ∧ c.toNat ≠ 215
    · have h1 : (lowerCI c).toNat = c.toNat + 32 := lowerCI_toNat_latin u
      have ha : isPySpace c = false :=
        isPySpace_of_toNat (by omega) (by omega) (by omega) (by omega)
      have hb : isPySpace (lowerCI c) = false :=
        isPySpace_of_toNat (by omega) (by omega) (by omega) (by omega)
      rw [ha, hb]
    · rw [lowerCI_other h u]

/-! ### Label normalisation: split and join lemmas -/

theorem pySplit_token_props :
    ∀ s : PyStr, ∀ t ∈ pySplit s, t ≠ [] ∧ ∀ c ∈ t, isPySpace c = false := by
  intro s
  induction s with
  | nil => intro t ht; cases ht
  | cons c s2 ih =>
    intro t ht
    cases s2 with
    | nil =>
      by_cases hc : isPySpace c
      · rw [show pySplit [c] = [] from by simp [pySplit, hc]] at ht
        cases ht
      · rw [show pySplit [c] = [[c]] from by simp [pySplit, hc]] at ht
        rw [List.mem_singleton] at ht
        subst ht
        refine ⟨by simp, ?_⟩
        intro x hx
        rw [List.mem_singleton] at hx
        subst hx
        simpa using hc
    | cons d s3 =>
      by_cases hc : isPySpace c
      · rw [show pySplit (c :: d :: s3) = pySplit (d :: s3) from by
            simp [pySplit, hc]] at ht
        exact ih t ht
      · by_cases hd : isPySpace d
        · rw [show pySplit (c :: d :: s3) = [c] :: pySplit (d :: s3) from by
              simp [pySplit, hc, hd]] at ht
          rcases List.mem_cons.mp ht with rfl | ht2
          · refine ⟨by simp, ?_⟩
            intro x hx
            rw [List.mem_singleton] at hx
            subst hx
            simpa using hc
          · exact ih t ht2
        · cases hsp : pySplit (d :: s3) with
          | nil =>
            rw [show pySplit (c :: d :: s3) = [[c]] from by
                simp [pySplit, hc, hd, hsp]] at ht
            rw [List.mem_singleton] at ht
            subst ht
            refine ⟨by simp, ?_⟩
            intro x hx
            rw [List.mem_singleton] at hx
            subst hx
            simpa using hc
          | cons w ws =>
            rw [show pySplit (c :: d :: s3) = (c :: w) :: ws from by
                simp [pySplit, hc, hd, hsp]] at ht
            rcases List.mem_cons.mp ht with rfl | ht2
            · have hw := ih w (by rw [hsp]; simp)
              refine ⟨by simp, ?_⟩
              intro x hx
              rcases List.mem_cons.mp hx with rfl | hx2
              · simpa using hc
              · exact hw.2 x hx2
            · exact ih t (by rw [hsp]; simp [ht2])

theorem pySplit_ws_cons {c : Char} (r : PyStr) (h : isPySpace c = true) :
    pySplit (c :: r) = pySplit r := by
  cases r with
  | nil => simp [pySplit, h]
  | cons d s => simp [pySplit, h]

theorem pySplit_single :
    ∀ t : PyStr, t ≠ [] → (∀ c ∈ t, isPySpace c = false) → pySplit t = [t] := by
  intro t
  induction t with
  | nil => intro h; cases h rfl
  | cons c t2 ih =>
    intro _ hwf
    have hc : isPySpace c = false := hwf c (by simp)
    cases t2 with
    | nil => simp [pySplit, hc]
    | cons d t3 =>
      have hd : isPySpace d = false := hwf d (by simp)
      have hrec : pySplit (d :: t3) = [d :: t3] :=
        ih (by simp) (fun x hx => hwf x (by simp [List.mem_cons.mp hx]))
      simp [pySplit, hc, hd, hrec]

theorem pySplit_word :
    ∀ t : PyStr, t ≠ [] → (∀ c ∈ t, isPySpace c = false) →
    ∀ r : PyStr, pySplit (t ++ ' ' :: r) = t :: pySplit r := by
  intro t
  induction t with
  | nil => intro h; cases h rfl
  | cons c t2 ih =>
    intro _ hwf r
    have hc : isPySpace c = false := hwf c (by simp)
    cases t2 with
    | nil =>
      show pySplit (c :: ' ' :: r) = [c] :: pySplit r
      rw [show pySplit (c :: ' ' :: r) = [c] :: pySplit (' ' :: r) from by
          simp [pySplit, hc, show isPySpace ' ' = true by decide]]
      rw [pySplit_ws_cons (c := ' ') r rfl]
    | cons d t3 =>
      have hd : isPySpace d = false := hwf d (by simp)
      have hrec : pySplit ((d :: t3) ++ ' ' :: r) = (d :: t3) :: pySplit r :=
        ih (by simp) (fun x hx => hwf x (by simp [List.mem_cons.mp hx])) r
      show pySplit (c :: ((d :: t3) ++ ' ' :: r)) = _
      rw [show (d :: t3) ++ ' ' :: r = d :: (t3 ++ ' ' :: r) from rfl] at hrec ⊢
      simp [pySplit, hc, hd, hrec]

theorem pySplit_joinSp :
    ∀ ts : List PyStr, (∀ t ∈ ts, t ≠ [] ∧ ∀ c ∈ t, isPySpace c = false) →
    pySplit (joinSp ts) = ts := by
  intro ts
  induction ts with
  | nil => intro _; rfl
  | cons t ts2 ih =>
    intro hts
    cases ts2 with
    | nil =>
      show pySplit t = [t]
      exact pySplit_single t (hts t (by simp)).1 (hts t (by simp)).2
    | cons t2 ts3 =>
      show pySplit (t ++ ' ' :: joinSp (t2 :: ts3)) = _
      rw [pySplit_word t (hts t (by simp)).1 (hts t (by simp)).2]
      rw [ih (fun u hu => hts u (by simp [hu]))]

theorem mem_joinSp :
    ∀ (ts : List PyStr) (c : Char), c ∈ joinSp ts → c = ' ' ∨ ∃ t ∈ ts, c ∈ t := by
  intro ts
  induction ts with
  | nil => intro c hc; cases hc
  | cons t ts2 ih =>
    intro c hc
    cases ts2 with
    | nil => exact Or.inr ⟨t, by simp, hc⟩
    | cons t2 ts3 =>
      rw [show joinSp (t :: t2 :: ts3) = t ++ ' ' :: joinSp (t2 :: ts3) from rfl] at hc
      rcases List.mem_append.mp hc with h1 | h2
      · exact Or.inr ⟨t, by simp, h1⟩
      · rcases List.mem_cons.mp h2 with rfl | h3
        · exact Or.inl rfl
        · rcases ih c h3 with h4 | ⟨u, hu, hcu⟩
          · exact Or.inl h4
          · exact Or.inr ⟨u, by simp [hu], hcu⟩

theorem pyLower_joinSp :
    ∀ ts : List PyStr, pyLower (joinSp ts) = joinSp (ts.map pyLower) := by
  intro ts
  induction ts with
  | nil => rfl
  | cons t ts2 ih =>
    cases ts2 with
    | nil => rfl
    | cons t2 ts3 =>
      show pyLower (t ++ ' ' :: joinSp (t2 :: ts3)) = _
      rw [show joinSp ((t :: t2 :: ts3).map pyLower)
            = pyLower t ++ ' ' :: joinSp ((t2 :: ts3).map pyLower) from rfl]
      rw [show pyLower (t ++ ' ' :: joinSp (t2 :: ts3))
            = pyLower t ++ lowerCI ' ' :: pyLower (joinSp (t2 :: ts3)) from by
          simp [pyLower]]
      rw [show lowerCI ' ' = ' ' by decide, ih]

theorem pyLower_fix : ∀ x : PyStr, (∀ c ∈ x, lowerCI c = c) → pyLower x = x := by
  intro x
  induction x with
  | nil => intro _; rfl
  | cons c t ih =>
    intro h
    show lowerCI c :: pyLower t = c :: t
    rw [h c (by simp), ih (fun d hd => h d (by simp [hd]))]

/-! ### Label normalisation: trailing-colon stripping lemmas -/

theorem dropWhile_head_false {p : Char → Bool} :
    ∀ (l : PyStr) (c : Char) (t : PyStr), l.dropWhile p = c :: t → p c = false := by
  intro l
  induction l with
  | nil => intro c t h; cases h
  | cons a l2 ih =>
    intro c t h
    by_cases ha : p a
    · rw [List.dropWhile_cons_of_pos ha] at h
      exact ih c t h
    · rw [List.dropWhile_cons_of_neg ha] at h
      injection h with h1 _
      subst h1
      simpa using ha

theorem rstripColon_getLast_ne (s : PyStr) (c : Char)
    (h : (rstripColon s).getLast? = some c) : c ≠ ':' := by
  unfold rstripColon at h
  rw [List.getLast?_reverse] at h
  cases hd : (s.reverse.dropWhile (fun x => x == ':')) with
  | nil => rw [hd] at h; cases h
  | cons a t =>
    rw [hd] at h
    injection h with h1
    have hf := dropWhile_head_false s.reverse a t hd
    intro he
    rw [he] at h1
    rw [h1] at hf
    simp at hf

theorem rstripColon_fix (s : PyStr)
    (h : ∀ c, s.getLast? = some c → c ≠ ':') : rstripColon s = s := by
  cases hrev : s.reverse with
  | nil =>
    have hs : s = [] := by
      have := congrArg List.reverse hrev
      simpa using this
    rw [hs]
    rfl
  | cons c t =>
    have hlast : s.getLast? = some c := by
      rw [← List.head?_reverse, hrev]
      rfl
    have hc : (c == ':') = false := by
      cases hb : c == ':'
      · rfl
      · exact absurd (eq_of_beq hb) (h c hlast)
    unfold rstripColon
    rw [hrev, List.dropWhile_cons_of_neg (by simp [hc]), ← hrev]
    simp

theorem rstripColon_nil_iff_entry {y : PyStr} (h : rstripColon y = []) :
    y.reverse.dropWhile (fun x => x == ':') = [] := by
  unfold rstripColon at h
  have := congrArg List.reverse h
  simpa using this

theorem rstripColon_append_nil (x y : PyStr) (h : rstripColon y = []) :
    rstripColon (x ++ y) = rstripColon x := by
  unfold rstripColon
  rw [List.reverse_append, List.dropWhile_append]
  rw [show (y.reverse.dropWhile (fun c => c == ':')).isEmpty = true from by
      rw [rstripColon_nil_iff_entry h]; rfl]
  simp

theorem rstripColon_append (x y : PyStr) (h : rstripColon y ≠ []) :
    rstripColon (x ++ y) = x ++ rstripColon y := by
  have hne : (y.reverse.dropWhile (fun c => c == ':')).isEmpty = false := by
    cases hd : y.reverse.dropWhile (fun c => c == ':') with
    | nil =>
      exfalso
      apply h
      unfold rstripColon
      rw [hd]
      rfl
    | cons a t => rfl
  unfold rstripColon
  rw [List.reverse_append, List.dropWhile_append, hne]
  simp

theorem mem_rstripColon {c : Char} {s : PyStr} (h : c ∈ rstripColon s) : c ∈ s := by
  unfold rstripColon at h
  rw [List.mem_reverse] at h
  have hsub := List.dropWhile_sublist (l := s.reverse) (fun x => x == ':')
  have := hsub.mem h
  rwa [List.mem_reverse] at this

theorem rstrip_joinSp_decomp :
    ∀ ts : List PyStr, (∀ t ∈ ts, t ≠ [] ∧ ∀ c ∈ t, isPySpace c = false) →
    (rstripColon (joinSp ts)).getLast? ≠ some ' ' →
    ∃ us : List PyStr, rstripColon (joinSp ts) = joinSp us
      ∧ ∀ u ∈ us, u ≠ [] ∧ ∀ c ∈ u, isPySpace c = false := by
  intro ts
  induction ts with
  | nil => intro _ _; exact ⟨[], rfl, by simp⟩
  | cons t ts2 ih =>
    cases ts2 with
    | nil =>
      intro hts _
      by_cases hz : rstripColon t = []
      · exact ⟨[], by simpa [joinSp] using hz, by simp⟩
      · refine ⟨[rstripColon t], by simp [joinSp], ?_⟩
        intro u hu
        rw [List.mem_singleton] at hu
        subst hu
        refine ⟨hz, ?_⟩
        intro c hc
        exact (hts t (by simp)).2 c (mem_rstripColon hc)
    | cons t2 ts3 =>
      intro hts hlast
      have hshape : joinSp (t :: t2 :: ts3) = (t ++ [' ']) ++ joinSp (t2 :: ts3) := by
        show t ++ ' ' :: joinSp (t2 :: ts3) = _
        simp
      by_cases hz2 : rstripColon (joinSp (t2 :: ts3)) = []
      · exfalso
        apply hlast
        rw [hshape, rstripColon_append_nil _ _ hz2]
        rw [rstripColon_fix (t ++ [' ']) (by
          intro c hcl
          rw [List.getLast?_concat] at hcl
          injection hcl with h1
          subst h1
          decide)]
        exact List.getLast?_concat t
      · have hlast2 : (rstripColon (joinSp (t2 :: ts3))).getLast? ≠ some ' ' := by
          intro hsp
          apply hlast
          rw [hshape, rstripColon_append _ _ hz2, List.getLast?_append, hsp]
          rfl
        obtain ⟨us2, hus2, hprops⟩ := ih (fun u hu => hts u (by simp [hu])) hlast2
        have hus2ne : us2 ≠ [] := by
          intro h0
          rw [h0] at hus2
          exact hz2 hus2
        refine ⟨t :: us2, ?_, ?_⟩
        · rw [hshape, rstripColon_append _ _ hz2, hus2]
          obtain ⟨u0, us3, rfl⟩ := List.exists_cons_of_ne_nil hus2ne
          show (t ++ [' ']) ++ joinSp (u0 :: us3) = t ++ ' ' :: joinSp (u0 :: us3)
          simp
        · intro u hu
          rcases List.mem_cons.mp hu with rfl | hu2
          · exact hts u (by simp)
          · exact hprops u hu2

/-- C6, counterexample: label normalisation is not idempotent.  For "a :"
one application gives "a " (the rstrip of the colon exposes a trailing
space), a second application gives "a". -/
theorem C6_counterexample :
    normLabel (normLabel (toL "a :")) ≠ normLabel (toL "a :") := by
  decide

/-- C6 (amended): label normalisation is idempotent on every Latin-1 string
(the range on which the embedded str.lower is exact) whose normalised form
does not end in a space; the exception arises exactly when stripping the
trailing colons exposes a space separator. -/
theorem C6_normLabel_idem (s : PyStr)
    (_hL : ∀ c ∈ s, c.toNat < 256)
    (h : (normLabel s).getLast? ≠ some ' ') :
    normLabel (normLabel s) = normLabel s := by
  have hts := pySplit_token_props s
  have h2 : pyLower (normWs s) = joinSp ((pySplit s).map pyLower) := by
    rw [show normWs s = joinSp (pySplit s) from rfl, pyLower_joinSp]
  have hts2 : ∀ t ∈ (pySplit s).map pyLower, t ≠ [] ∧ ∀ c ∈ t, isPySpace c = false := by
    intro t ht
    rw [List.mem_map] at ht
    obtain ⟨t0, ht0, rfl⟩ := ht
    obtain ⟨hne, hwf⟩ := hts t0 ht0
    refine ⟨by simpa [pyLower] using hne, ?_⟩
    intro c hc
    rw [show pyLower t0 = t0.map lowerCI from rfl, List.mem_map] at hc
    obtain ⟨c0, hc0, rfl⟩ := hc
    rw [isPySpace_lowerCI]
    exact hwf c0 hc0
  have hz : normLabel s = rstripColon (joinSp ((pySplit s).map pyLower)) := by
    rw [normLabel, h2]
  rw [hz] at h ⊢
  obtain ⟨us, hus, hprops⟩ := rstrip_joinSp_decomp _ hts2 h
  rw [hus]
  have ha : normWs (joinSp us) = joinSp us := by
    rw [normWs, pySplit_joinSp us hprops]
  have hb : pyLower (joinSp us) = joinSp us := by
    apply pyLower_fix
    intro c hc
    rw [← hus] at hc
    have hc2 : c ∈ joinSp ((pySplit s).map pyLower) := mem_rstripColon hc
    rcases mem_joinSp _ c hc2 with hsp | ⟨u, hu, hcu⟩
    · rw [hsp]; rfl
    · rw [List.mem_map] at hu
      obtain ⟨t0, _, rfl⟩ := hu
      rw [show pyLower t0 = t0.map lowerCI from rfl, List.mem_map] at hcu
      obtain ⟨c0, _, rfl⟩ := hcu
      exact lowerCI_idem c0
  have hco : rstripColon (joinSp us) = joinSp us := by
    apply rstripColon_fix
    intro c hcl
    rw [← hus] at hcl
    exact rstripColon_getLast_ne _ c hcl
  rw [normLabel, ha, hb, hco]

/-- Witness for C6 (amended) at the label "Datum:". -/
theorem C6_normLabel_idem_witness :
    normLabel (normLabel (toL "Datum:")) = normLabel (toL "Datum:") :=
  C6_normLabel_idem (toL "Datum:") (by decide) (by decide)
